import Mathlib

/-!
Verification of the version-compatibility resolution engine of `go-get`.

The development shallowly embeds the current generation of the tool
(`pkg/mod/util.go` together with the `Manager` of the refreshed
`pkg/mod/mod.go`, i.e. the variant with `GoGet(module, refresh)`, the
`.mod_cache.json` cache path and `MaxConcurrent = 20`, which is the code
the README documents).  Network calls are abstracted as explicit
`Except`-valued inputs; the file system backing the cache is an explicit
state record; goroutine scheduling is a small-step transition relation.
-/

namespace GoGet

/-! ## Character-level string utilities

Go's `strings`/`regexp` operations used by the engine, re-implemented on
`List Char` so that every definition reduces by `rfl`/`decide`. -/

/-- Numeric value of a decimal digit character sequence; `none` when the
sequence is empty or contains a non-digit (mirrors parsing a `\d+` token). -/
def charsToNat (cs : List Char) : Option Nat :=
  match cs with
  | [] => none
  | _ =>
    if cs.all Char.isDigit then
      some (cs.foldl (fun acc c => 10 * acc + (c.toNat - '0'.toNat)) 0)
    else
      none

/-- Split a character list at every occurrence of `sep`
(mirrors `strings.Split`). -/
def splitOnChar (sep : Char) : List Char → List (List Char)
  | [] => [[]]
  | c :: rest =>
    match splitOnChar sep rest with
    | [] => [[]]
    | seg :: segs => if c = sep then [] :: seg :: segs else (c :: seg) :: segs

/-- Go `unicode.IsSpace` restricted to the ASCII fragment relevant here. -/
def isGoSpace (c : Char) : Bool :=
  c = ' ' || c = '\t' || c = '\n' || c = '\r' || c = '\x0b' || c = '\x0c'

/-- `strings.TrimSpace` on a character list (ASCII whitespace). -/
def trimSpaceList (cs : List Char) : List Char :=
  ((cs.dropWhile isGoSpace).reverse.dropWhile isGoSpace).reverse

/-- Whether `pre` is a prefix of `l` (Go `strings.HasPrefix`). -/
def listHasPrefix : List Char → List Char → Bool
  | [], _ => true
  | _ :: _, [] => false
  | p :: ps, c :: cs => p = c && listHasPrefix ps cs

/-- Whether `needle` occurs inside `hay` (Go `strings.Contains`). -/
def listHasSub (needle : List Char) : List Char → Bool
  | [] => needle.isEmpty
  | c :: cs => listHasPrefix needle (c :: cs) || listHasSub needle cs

/-- Go `strings.Contains(s, sub)`. -/
def strContains (s sub : String) : Bool :=
  listHasSub sub.toList s.toList

/-- Go `strings.TrimPrefix(s, "go")`. -/
def trimGoPrefix (s : String) : String :=
  match s.toList with
  | 'g' :: 'o' :: rest => String.mk rest
  | _ => s

/-! ## VersionComparator — `compareGoVersions` (`pkg/mod/util.go`)

The Go function strips a `go` prefix from both arguments and delegates to
the third-party `hashicorp/go-version` library:

  - parse failure of either string makes it return `true`;
  - otherwise it returns `v1.GreaterThanOrEqual(v2)`.

The library itself is a vendored dependency and not part of `src/`. -/

/-- Modelled from the spec: the parsing done by the third-party
`hashicorp/go-version` library (absent from `src/`) is modelled per §4.1 as
reading a dotted numeric `(major, minor, patch)` tuple, treating missing
trailing components as `0`, and failing on anything that is not one to
three dot-separated runs of digits. -/
def versionTuple (s : String) : Option (Nat × Nat × Nat) :=
  match (splitOnChar '.' s.toList).mapM charsToNat with
  | none => none
  | some comps =>
    if comps.length ≤ 3 then
      some (comps.getD 0 0, comps.getD 1 0, comps.getD 2 0)
    else
      none

/-- Component-wise ≥ on `(major, minor, patch)` tuples
(the library's `GreaterThanOrEqual` on three numeric segments). -/
def tupleGE : Nat × Nat × Nat → Nat × Nat × Nat → Bool
  | (a, b, c), (d, e, f) =>
    if d < a then true
    else if a < d then false
    else if e < b then true
    else if b < e then false
    else decide (f ≤ c)

/-- `compareGoVersions(currentVersion, requiredVersion)`
(`pkg/mod/util.go`): trim a `go` prefix from both sides, parse both, return
`true` when either parse fails, otherwise compare. -/
def compareGoVersions (currentVersion requiredVersion : String) : Bool :=
  let current := trimGoPrefix currentVersion
  let required := trimGoPrefix requiredVersion
  match versionTuple current, versionTuple required with
  | some t1, some t2 => tupleGE t1 t2
  | _, _ => true

/-- C1: `Compare(local, required)` is true iff the numeric
`(major, minor, patch)` tuple of `local` is ≥ that of `required` (missing
trailing components read as 0), and is true whenever either side fails to
parse as numeric components. -/
theorem compareGoVersions_ge_iff (l r : String) :
    compareGoVersions l r = true ↔
      (versionTuple (trimGoPrefix l) = none ∨
       versionTuple (trimGoPrefix r) = none ∨
       ∃ a b c d e f,
         versionTuple (trimGoPrefix l) = some (a, b, c) ∧
         versionTuple (trimGoPrefix r) = some (d, e, f) ∧
         (d < a ∨ (d = a ∧ (e < b ∨ (e = b ∧ f ≤ c))))) := by
  unfold compareGoVersions
  cases h1 : versionTuple (trimGoPrefix l) with
  | none => simp [h1]
  | some t1 =>
    cases h2 : versionTuple (trimGoPrefix r) with
    | none => simp [h2]
    | some t2 =>
      obtain ⟨a, b, c⟩ := t1
      obtain ⟨d, e, f⟩ := t2
      simp only [h1, h2, Option.some.injEq, reduceCtorEq, false_or]
      constructor
      · intro hge
        refine ⟨a, b, c, d, e, f, rfl, rfl, ?_⟩
        unfold tupleGE at hge
        by_cases hda : d < a
        · exact Or.inl hda
        · by_cases had : a < d
          · simp [hda, had] at hge
          · by_cases heb : e < b
            · exact Or.inr ⟨by omega, Or.inl heb⟩
            · by_cases hbe : b < e
              · simp [hda, had, heb, hbe] at hge
              · refine Or.inr ⟨by omega, Or.inr ⟨by omega, ?_⟩⟩
                simp [hda, had, heb, hbe] at hge
                exact hge
      · rintro ⟨a', b', c', d', e', f', ha, hb, hcmp⟩
        simp only [Option.some.injEq, Prod.mk.injEq] at ha hb
        obtain ⟨rfl, rfl, rfl⟩ := ha
        obtain ⟨rfl, rfl, rfl⟩ := hb
        unfold tupleGE
        rcases hcmp with h | ⟨rfl, h⟩
        · simp [h]
        · rcases h with h | ⟨rfl, h⟩
          · simp [Nat.lt_irrefl, h]
          · simp [Nat.lt_irrefl, h]

/-! ## VersionSource — `getModuleGoVersion` and `listVersion` (`pkg/mod/util.go`)

The HTTP round trip is abstracted: `getModuleGoVersion` receives the
transport outcome (`Except.error msg` for a transport failure, otherwise the
fetched descriptor body), and `listVersion` receives the fetched listing
body.  Everything after the transport is translated from the source. -/

/-- RE2 `\s`, the whitespace class of Go's `regexp`: `[\t\n\f\r ]`. -/
def isRegexSpace (c : Char) : Bool :=
  c = ' ' || c = '\t' || c = '\n' || c = '\x0c' || c = '\r'

/-- Match `\d+\.\d+(\.\d+)?` at the head of `cs`, returning the matched
characters (the greedy capture of `ModGoVersionPattern`'s group 1). -/
def matchVersionNum (cs : List Char) : Option (List Char) :=
  let (d1, r1) := cs.span Char.isDigit
  match d1, r1 with
  | [], _ => none
  | _ :: _, '.' :: r2 =>
    let (d2, r3) := r2.span Char.isDigit
    match d2, r3 with
    | [], _ => none
    | _ :: _, '.' :: r4 =>
      let (d3, _) := r4.span Char.isDigit
      match d3 with
      | [] => some (d1 ++ '.' :: d2)
      | _ :: _ => some (d1 ++ '.' :: d2 ++ '.' :: d3)
    | _ :: _, _ => some (d1 ++ '.' :: d2)
  | _ :: _, _ => none

/-- Match `go\s+(\d+\.\d+(\.\d+)?)` at a line-start position. -/
def matchGoDirective (cs : List Char) : Option String :=
  match cs with
  | 'g' :: 'o' :: rest =>
    let (ws, r1) := rest.span isRegexSpace
    match ws with
    | [] => none
    | _ :: _ => (matchVersionNum r1).map String.mk
  | _ => none

/-- Drop characters up to and including the next newline. -/
def skipLine : List Char → List Char
  | [] => []
  | c :: cs => if c = '\n' then cs else skipLine cs

/-- Scan the anchored positions of `(?m)^go\s+(\d+\.\d+(\.\d+)?)` from left
to right (fuel-driven so that it reduces definitionally). -/
def scanGoDirective : Nat → List Char → Option String
  | 0, _ => none
  | _, [] => none
  | fuel + 1, c :: cs =>
    match matchGoDirective (c :: cs) with
    | some v => some v
    | none => scanGoDirective fuel (skipLine (c :: cs))

/-- First submatch of `ModGoVersionPattern` on the descriptor body, i.e.
`regexp.FindStringSubmatch` of `(?m)^go\s+(\d+\.\d+(\.\d+)?)`. -/
def extractGoDirective (body : String) : Option String :=
  scanGoDirective (body.toList.length + 1) body.toList

/-- Outcome classification of a descriptor fetch: a transport failure, or
the `no Go version found in go.mod` error produced when the pattern does
not match the fetched body. -/
inductive FetchError where
  | registry (msg : String)
  | noDirective
deriving DecidableEq

/-- `getModuleGoVersion(module, version, verbose)` (`pkg/mod/util.go`)
after abstracting the HTTP call: a transport error propagates, a body is
scanned with `ModGoVersionPattern`, a body without a `go` directive yields
the `no Go version found` error. -/
def getModuleGoVersion (fetched : Except String String) : Except FetchError String :=
  match fetched with
  | .error msg => .error (.registry msg)
  | .ok body =>
    match extractGoDirective body with
    | some v => .ok v
    | none => .error .noDirective

/-- C3: evaluation of `getModuleGoVersion` on a descriptor without a
minimum-toolchain directive: the code fails with the `no Go version found`
error instead of returning a none-result, while transport failures and
present directives behave as described. -/
theorem getModuleGoVersion_absent_directive_errors :
    getModuleGoVersion (Except.ok "module example.com/demo\n") =
      Except.error FetchError.noDirective ∧
    getModuleGoVersion (Except.error "dial tcp: connection refused") =
      Except.error (FetchError.registry "dial tcp: connection refused") ∧
    getModuleGoVersion (Except.ok "module example.com/demo\n\ngo 1.18\n") =
      Except.ok "1.18" ∧
    extractGoDirective "module example.com/demo\n" = none := by
  refine ⟨rfl, rfl, rfl, rfl⟩

/-- Whole-string match of `StableVersionPattern`, `^v\d+\.\d+\.\d+$`:
three dot-separated digit runs after a leading `v`. -/
def isStableVersion (s : String) : Bool :=
  match s.toList with
  | 'v' :: rest =>
    let (d1, r1) := rest.span Char.isDigit
    match d1, r1 with
    | _ :: _, '.' :: r2 =>
      let (d2, r3) := r2.span Char.isDigit
      match d2, r3 with
      | _ :: _, '.' :: r4 =>
        let (d3, r5) := r4.span Char.isDigit
        match d3, r5 with
        | _ :: _, [] => true
        | _, _ => false
      | _, _ => false
    | _, _ => false
  | _ => false

/-- `listVersion(module, verbose)` (`pkg/mod/util.go`) after abstracting
the HTTP call: trim and split the listing body, keep exact stable tags
without `+incompatible`; when empty, keep tags without
`-alpha`/`-beta`/`-rc`/`+incompatible`; when that is also empty, the source
returns the unfiltered listing only under `verbose`. -/
def listVersion (body : String) (verbose : Bool) : List String :=
  let allVersions := (splitOnChar '\n' (trimSpaceList body.toList)).map String.mk
  let stableVersions := allVersions.filter
    (fun v => isStableVersion v && !strContains v "+incompatible")
  if stableVersions.isEmpty then
    let loose := allVersions.filter (fun v =>
      !strContains v "-alpha" && !strContains v "-beta" &&
      !strContains v "-rc" && !strContains v "+incompatible")
    if loose.isEmpty && verbose then allVersions else loose
  else stableVersions

/-- C4: evaluation of `listVersion` showing the final unfiltered fallback
is reached only when verbose logging is enabled; with `verbose = false` a
listing whose tags are all filtered out yields the empty list, while the
looser second filter itself works as described. -/
theorem listVersion_unfiltered_fallback_requires_verbose :
    listVersion "v1.0.0-alpha" false = [] ∧
    listVersion "v1.0.0-alpha" true = ["v1.0.0-alpha"] ∧
    listVersion "v1.0.0-alpha\nv0.9.0+incompatible" false = [] ∧
    listVersion "v1.0.0-alpha\nv2.0.0-custom" false = ["v2.0.0-custom"] := by
  refine ⟨rfl, rfl, rfl, rfl⟩

/-! ## CompatibilityCache — data model and persistence (`pkg/mod/mod.go`)

`Manager.modMap` is `map[string]map[string]string` keyed by local toolchain
version, then module path; Go maps are embedded as association lists (the
map operations used are lookup, insert and create-empty, for which the
embedding is faithful; iteration order is never observed).  The cache file
is a single fixed path, embedded as an explicit state record; `os.ReadFile`
failure (missing or unreadable file) is `content = none`, and a failing
`os.WriteFile` is `writable = false`. -/

abbrev InnerMap := List (String × String)

abbrev CacheMap := List (String × InnerMap)

/-- Lookup in an association list (Go map read `m[k]`). -/
def lookupA {α : Type} : List (String × α) → String → Option α
  | [], _ => none
  | (k', v) :: rest, k => if k' == k then some v else lookupA rest k

/-- Insert or overwrite in an association list (Go map write `m[k] = v`). -/
def insertA {α : Type} : List (String × α) → String → α → List (String × α)
  | [], k, v => [(k, v)]
  | (k', v') :: rest, k, v =>
    if k' == k then (k, v) :: rest else (k', v') :: insertA rest k v

/-- Nested read `modMap[g][mo]`. -/
def lookup2 (m : CacheMap) (g mo : String) : Option String :=
  match lookupA m g with
  | none => none
  | some im => lookupA im mo

/-- The `if _, exists := m.modMap[g]; !exists` initialisation of the inner
map performed before a probe round. -/
def ensureKey (m : CacheMap) (g : String) : CacheMap :=
  match lookupA m g with
  | some _ => m
  | none => insertA m g []

/-- Nested write `modMap[g][mo] = v` (the inner map exists by `ensureKey`). -/
def insert2 (m : CacheMap) (g mo v : String) : CacheMap :=
  insertA m g (insertA ((lookupA m g).getD []) mo v)

/-- State of the cache file at `cachePath`. -/
structure FSState where
  content : Option String
  writable : Bool
deriving DecidableEq

/-- `os.WriteFile(cachePath, s, 0644)`: replaces the content, or reports an
error when the store cannot be written. -/
def fsWrite (fs : FSState) (s : String) : FSState × Option String :=
  if fs.writable then (⟨some s, fs.writable⟩, none) else (fs, some "write failed")

/-! ### The persisted JSON document

Modelled from the spec: `encoding/json.MarshalIndent`/`Unmarshal` are
standard-library code absent from `src/`; per §6 the document is a
pretty-printed object keyed by toolchain-version strings whose values are
objects mapping module paths to version strings.  The codec below parses
exactly that shape (strings without escape sequences) and prints it with
two-space indentation; `MarshalIndent` of an empty map is the two-character
document rendered here as `emptyCacheDoc`. -/

/-- Skip JSON insignificant whitespace. -/
def skipWS (cs : List Char) : List Char :=
  cs.dropWhile (fun c => c = ' ' || c = '\t' || c = '\n' || c = '\r')

/-- Parse a JSON string literal without escapes, returning it and the rest. -/
def parseJsonStrAux : List Char → List Char → Option (String × List Char)
  | [], _ => none
  | c :: cs, acc =>
    if c = '"' then some (String.mk acc.reverse, cs)
    else if c = '\\' then none
    else parseJsonStrAux cs (c :: acc)

/-- Parse a double-quoted JSON string at the head of the input. -/
def parseJsonStr : List Char → Option (String × List Char)
  | '"' :: rest => parseJsonStrAux rest []
  | _ => none

/-- Parse the members of an inner (module ↦ version) object after the
opening brace, fuel-driven. -/
def parseInnerPairs : Nat → List Char → Option (InnerMap × List Char)
  | 0, _ => none
  | fuel + 1, cs =>
    match parseJsonStr cs with
    | none => none
    | some (k, r1) =>
      match skipWS r1 with
      | ':' :: r2 =>
        match parseJsonStr (skipWS r2) with
        | none => none
        | some (v, r3) =>
          match skipWS r3 with
          | ',' :: r4 =>
            match parseInnerPairs fuel (skipWS r4) with
            | some (im, r5) => some ((k, v) :: im, r5)
            | none => none
          | '\x7d' :: r4 => some ([(k, v)], r4)
          | _ => none
      | _ => none

/-- Parse an inner (module ↦ version) JSON object. -/
def parseInnerObj : List Char → Option (InnerMap × List Char)
  | '\x7b' :: rest =>
    (match skipWS rest with
     | '\x7d' :: r2 => some ([], r2)
     | r => parseInnerPairs (r.length + 1) r)
  | _ => none

/-- Parse the members of the outer (toolchain ↦ object) object after the
opening brace, fuel-driven. -/
def parseOuterPairs : Nat → List Char → Option (CacheMap × List Char)
  | 0, _ => none
  | fuel + 1, cs =>
    match parseJsonStr cs with
    | none => none
    | some (k, r1) =>
      match skipWS r1 with
      | ':' :: r2 =>
        match parseInnerObj (skipWS r2) with
        | none => none
        | some (im, r3) =>
          match skipWS r3 with
          | ',' :: r4 =>
            match parseOuterPairs fuel (skipWS r4) with
            | some (m, r5) => some ((k, im) :: m, r5)
            | none => none
          | '\x7d' :: r4 => some ([(k, im)], r4)
          | _ => none
      | _ => none

/-- Parse the outer JSON object. -/
def parseOuterObj : List Char → Option (CacheMap × List Char)
  | '\x7b' :: rest =>
    (match skipWS rest with
     | '\x7d' :: r2 => some ([], r2)
     | r => parseOuterPairs (r.length + 1) r)
  | _ => none

/-- `json.Unmarshal` of the persisted document into the nested mapping. -/
def parseCacheJson (s : String) : Option CacheMap :=
  match parseOuterObj (skipWS s.toList) with
  | some (m, rest) => if (skipWS rest).isEmpty then some m else none
  | none => none

/-- Wrap a string in JSON quotes. -/
def jsonQuote (s : String) : String := "\"" ++ s ++ "\""

/-- Render an inner object at one level of indentation. -/
def printInnerObj (im : InnerMap) : String :=
  match im with
  | [] => "\x7b\x7d"
  | _ =>
    "\x7b\n" ++
    String.intercalate ",\n"
      (im.map (fun p => "    " ++ jsonQuote p.1 ++ ": " ++ jsonQuote p.2)) ++
    "\n  \x7d"

/-- `json.MarshalIndent(modMap, "", "  ")` for the nested mapping (the
source serialises a Go map, which orders keys; ordering is never observed
by any property below). -/
def printCache (m : CacheMap) : String :=
  match m with
  | [] => "\x7b\x7d"
  | _ =>
    "\x7b\n" ++
    String.intercalate ",\n"
      (m.map (fun p => "  " ++ jsonQuote p.1 ++ ": " ++ printInnerObj p.2)) ++
    "\n\x7d"

/-- The document produced for an empty mapping. -/
def emptyCacheDoc : String := printCache []

/-- `Manager.loadCache` (`pkg/mod/mod.go`): reset the in-memory mapping,
read the store; on read failure or parse failure rewrite an empty document
and return the write's outcome; on success install the parsed mapping. -/
def loadCache (fs : FSState) : FSState × CacheMap × Option String :=
  match fs.content with
  | none =>
    let w := fsWrite fs emptyCacheDoc
    (w.1, [], w.2)
  | some data =>
    match parseCacheJson data with
    | none =>
      let w := fsWrite fs emptyCacheDoc
      (w.1, [], w.2)
    | some m => (fs, m, none)

/-- C5 counterexample: when the backing store is missing (or malformed) and
the rewrite of the fresh empty document fails, `loadCache` returns that
error to its caller (`GoGet` propagates it), so loading is not error-free
for every store state. -/
theorem loadCache_error_counterexample :
    (loadCache ⟨none, false⟩).2.2 = some "write failed" ∧
    (loadCache ⟨some "not json", false⟩).2.2 = some "write failed" := by
  refine ⟨rfl, rfl⟩

/-- C5 amended: provided the rewrite of the empty document succeeds (a
writable store), loading never returns an error, and on missing or
malformed content it resets the in-memory mapping to the empty mapping and
leaves the syntactically valid empty document on disk. -/
theorem loadCache_self_healing (fs : FSState) (s : String)
    (hw : fs.writable = true) :
    (loadCache fs).2.2 = none ∧
    (fs.content = none →
      (loadCache fs).2.1 = [] ∧ (loadCache fs).1.content = some emptyCacheDoc) ∧
    (fs.content = some s → parseCacheJson s = none →
      (loadCache fs).2.1 = [] ∧ (loadCache fs).1.content = some emptyCacheDoc) ∧
    parseCacheJson emptyCacheDoc = some [] := by
  obtain ⟨c, w⟩ := fs
  subst hw
  refine ⟨?_, ?_, ?_, rfl⟩
  · cases c with
    | none => rfl
    | some data =>
      simp only [loadCache]
      cases h : parseCacheJson data <;> rfl
  · intro hc
    cases c with
    | none => exact ⟨rfl, rfl⟩
    | some data => cases hc
  · intro hc hp
    cases c with
    | none => cases hc
    | some data =>
      injection hc with hc
      subst hc
      simp [loadCache, hp, fsWrite]

/-- C5 witness: the amended statement evaluated on a writable store holding
malformed content. -/
theorem loadCache_self_healing_witness :
    (loadCache ⟨some "not json", true⟩).2.2 = none ∧
    ((⟨some "not json", true⟩ : FSState).content = none →
      (loadCache ⟨some "not json", true⟩).2.1 = [] ∧
      (loadCache ⟨some "not json", true⟩).1.content = some emptyCacheDoc) ∧
    ((⟨some "not json", true⟩ : FSState).content = some "not json" →
      parseCacheJson "not json" = none →
      (loadCache ⟨some "not json", true⟩).2.1 = [] ∧
      (loadCache ⟨some "not json", true⟩).1.content = some emptyCacheDoc) ∧
    parseCacheJson emptyCacheDoc = some [] :=
  loadCache_self_healing ⟨some "not json", true⟩ "not json" rfl

/-! ## Resolver — the probe round and selection (`pkg/mod/mod.go`)

`findCompatibleVersion` / `findCompatibleVersionRemote` launch one
goroutine per candidate version (admitted through the `MaxConcurrent`
semaphore), collect every `versionResult` from the channel after the
`WaitGroup` join, build the compatibility map, and scan the listing from
most recent to least recent.  The per-version fetch is abstracted as
`fetch : version ↦ transport outcome`; the list of probe results stands
for the drained channel in an arbitrary completion order (the map built
from it is keyed by version, which the permutation lemma below exploits).
The third component returned by the functions records which versions were
fetched during the call. -/

/-- Capacity of the admission semaphore (`const MaxConcurrent = 20`). -/
def MaxConcurrent : Nat := 20

/-- One `versionResult` message (`pkg/mod/mod.go`). -/
structure VersionResult where
  version : String
  goVersion : String
  compatible : Bool
deriving DecidableEq

/-- Body of one probe goroutine: fetch the version's requirement, record a
fetch failure as not compatible, otherwise compare
(`compatible := goVer == "" || compareGoVersions(localGoVersion, "go"+goVer)`). -/
def probeOne (localGoVersion ver : String) (fetched : Except String String) :
    VersionResult :=
  match getModuleGoVersion fetched with
  | .error _ => ⟨ver, "", false⟩
  | .ok goVer =>
    ⟨ver, goVer, goVer == "" || compareGoVersions localGoVersion ("go" ++ goVer)⟩

/-- The drained result channel of one probe round (launch order, i.e. most
recent first; any completion order is a permutation of this list). -/
def probeResults (versions : List String) (localGoVersion : String)
    (fetch : String → Except String String) : List VersionResult :=
  versions.reverse.map (fun v => probeOne localGoVersion v (fetch v))

/-- The `compatibleVersions` map built from the drained channel:
membership of `v` among the versions reported compatible. -/
def markedCompatible (results : List VersionResult) (v : String) : Bool :=
  ((results.filter (fun r => r.compatible)).map (fun r => r.version)).contains v

/-- The selection loop: scan the listing from most recent to least recent
and return the first version marked compatible. -/
def selectLatestCompatible (versions : List String)
    (results : List VersionResult) : Option String :=
  versions.reverse.find? (fun v => markedCompatible results v)

/-- Error returned when no candidate is compatible. -/
inductive ResolveError where
  | noCompatibleVersion
deriving DecidableEq

/-- In-memory state of a `Manager`: the nested mapping and the cache file. -/
structure MState where
  modMap : CacheMap
  fs : FSState
deriving DecidableEq

/-- `Manager.saveCache`: serialise the mapping and write it to the cache
file (a write failure is only logged by the callers). -/
def saveCache (st : MState) : MState :=
  ⟨st.modMap, (fsWrite st.fs (printCache st.modMap)).1⟩

/-- The remote part shared verbatim by `findCompatibleVersion` and
`findCompatibleVersionRemote`: ensure the inner map for the local version
exists, probe every candidate, select the most recent compatible one, and
on success store it and persist the cache. -/
def probeRound (st : MState) (module : String) (versions : List String)
    (localGoVersion : String) (fetch : String → Except String String) :
    MState × Except ResolveError String × List String :=
  let st1 : MState := ⟨ensureKey st.modMap localGoVersion, st.fs⟩
  let results := probeResults versions localGoVersion fetch
  match selectLatestCompatible versions results with
  | some v =>
    (saveCache ⟨insert2 st1.modMap localGoVersion module v, st1.fs⟩,
     Except.ok v, versions.reverse)
  | none => (st1, Except.error ResolveError.noCompatibleVersion, versions.reverse)

/-- `Manager.findCompatibleVersionFromCache`: return the cached selection
for `(localGoVersion, module)` when it is present in the current listing,
the empty string (a miss) otherwise. -/
def findCompatibleVersionFromCache (modMap : CacheMap) (module : String)
    (versions : List String) (localGoVersion : String) : String :=
  match lookupA modMap localGoVersion with
  | none => ""
  | some goVersionMap =>
    match lookupA goVersionMap module with
    | none => ""
    | some cachedVersion =>
      if versions.contains cachedVersion then cachedVersion else ""

/-- `Manager.findCompatibleVersion`: answer from the cache when possible,
otherwise run the remote probe round. -/
def findCompatibleVersion (st : MState) (module : String)
    (versions : List String) (localGoVersion : String)
    (fetch : String → Except String String) :
    MState × Except ResolveError String × List String :=
  let c := findCompatibleVersionFromCache st.modMap module versions localGoVersion
  if c ≠ "" then (st, Except.ok c, ([] : List String))
  else probeRound st module versions localGoVersion fetch

/-- `Manager.findCompatibleVersionRemote`: the probe round without the
cache check (its body duplicates the remote part of
`findCompatibleVersion` verbatim in the source). -/
def findCompatibleVersionRemote (st : MState) (module : String)
    (versions : List String) (localGoVersion : String)
    (fetch : String → Except String String) :
    MState × Except ResolveError String × List String :=
  probeRound st module versions localGoVersion fetch

/-- The branch of `Manager.GoGet` that picks between the two resolvers
based on the `refresh` flag. -/
def resolveVersion (st : MState) (module : String) (versions : List String)
    (localGoVersion : String) (fetch : String → Except String String)
    (refresh : Bool) : MState × Except ResolveError String × List String :=
  if refresh then findCompatibleVersionRemote st module versions localGoVersion fetch
  else findCompatibleVersion st module versions localGoVersion fetch

/-! ## Supporting lemmas -/

/-- `find?` only depends on the values of the predicate on the list. -/
theorem find?_congr {α : Type} (p q : α → Bool) :
    ∀ l : List α, (∀ x ∈ l, p x = q x) → l.find? p = l.find? q := by
  intro l
  induction l with
  | nil => intro _; rfl
  | cons a l ih =>
    intro h
    simp only [List.find?]
    rw [h a (List.mem_cons_self a l)]
    cases hq : q a
    · exact ih fun x hx => h x (List.mem_cons_of_mem a hx)
    · rfl

/-- The compatibility map built from the drained channel does not depend
on the completion order of the probes. -/
theorem markedCompatible_perm {r r2 : List VersionResult}
    (h : r.Perm r2) (v : String) :
    markedCompatible r v = markedCompatible r2 v := by
  unfold markedCompatible
  have hp := (h.filter (fun x => x.compatible)).map (fun x => x.version)
  simp only [List.contains, List.elem_eq_mem, decide_eq_decide]
  exact hp.mem_iff

/-- Probe results of a round in which every fetch fails are all marked
not compatible. -/
theorem probeResults_all_incompatible {versions : List String}
    {localGoVersion : String} {fetch : String → Except String String}
    (h : ∀ v ∈ versions, ∃ msg, fetch v = Except.error msg) :
    ∀ r ∈ probeResults versions localGoVersion fetch, r.compatible = false := by
  intro r hr
  unfold probeResults at hr
  rw [List.mem_map] at hr
  obtain ⟨v, hv, rfl⟩ := hr
  obtain ⟨msg, hmsg⟩ := h v (List.mem_reverse.mp hv)
  simp [probeOne, getModuleGoVersion, hmsg]

/-- Selection finds nothing when every probe result is incompatible. -/
theorem select_none_of_all_incompatible {versions : List String}
    {results : List VersionResult}
    (h : ∀ r ∈ results, r.compatible = false) :
    selectLatestCompatible versions results = none := by
  unfold selectLatestCompatible
  rw [List.find?_eq_none]
  intro x _
  have hf : results.filter (fun r => r.compatible) = [] :=
    List.filter_eq_nil_iff.mpr (fun a ha => by simp [h a ha])
  simp [markedCompatible, hf, List.contains]

/-- A failing probe round leaves the cache file untouched. -/
theorem probeRound_fs_change {st : MState} {module : String}
    {versions : List String} {localGoVersion : String}
    {fetch : String → Except String String}
    (h : (probeRound st module versions localGoVersion fetch).1.fs ≠ st.fs) :
    ∃ v, (probeRound st module versions localGoVersion fetch).2.1 = Except.ok v := by
  rcases hs : selectLatestCompatible versions
      (probeResults versions localGoVersion fetch) with _ | v
  · exfalso
    apply h
    simp only [probeRound]
    rw [hs]
  · refine ⟨v, ?_⟩
    simp only [probeRound]
    rw [hs]

/-- Inserting under key `k` only affects lookups of `k`. -/
theorem lookupA_insertA {α : Type} (m : List (String × α)) (k k2 : String)
    (v : α) :
    lookupA (insertA m k v) k2 = if k == k2 then some v else lookupA m k2 := by
  induction m with
  | nil => simp [insertA, lookupA]
  | cons p rest ih =>
    obtain ⟨k', v'⟩ := p
    by_cases h : k' = k
    · subst h
      simp only [insertA, beq_self_eq_true, if_true, lookupA]
      by_cases h2 : (k' == k2) = true
      · simp [h2, lookupA]
      · simp only [Bool.not_eq_true] at h2
        simp [h2, lookupA]
    · have hb : (k' == k) = false := by simp [h]
      simp only [insertA, hb, Bool.false_eq_true, if_false, lookupA]
      by_cases h2 : (k' == k2) = true
      · have he : k' = k2 := by simpa using h2
        subst he
        have hk : (k == k') = false := by
          simp only [beq_eq_false_iff_ne, ne_eq]
          exact fun hh => h hh.symm
        simp [h2, hk, lookupA]
      · simp only [Bool.not_eq_true] at h2
        simp [h2, ih, lookupA]

/-- Creating an empty inner map for a toolchain key changes no
`(toolchain, module) ↦ version` entry. -/
theorem lookup2_ensureKey (m : CacheMap) (g g2 mo : String) :
    lookup2 (ensureKey m g) g2 mo = lookup2 m g2 mo := by
  unfold ensureKey
  cases h : lookupA m g with
  | some im => rfl
  | none =>
    unfold lookup2
    rw [lookupA_insertA]
    by_cases hg : (g == g2) = true
    · have he : g = g2 := by simpa using hg
      subst he
      simp [hg, h, lookupA]
    · simp only [Bool.not_eq_true] at hg
      simp [hg]

/-- Closed form of the cached lookup in terms of the nested mapping read. -/
theorem findFromCache_eq (mm : CacheMap) (module : String)
    (versions : List String) (localGoVersion : String) :
    findCompatibleVersionFromCache mm module versions localGoVersion =
      (Option.map (fun cv => if versions.contains cv then cv else "")
        (lookup2 mm localGoVersion module)).getD "" := by
  unfold findCompatibleVersionFromCache lookup2
  cases lookupA mm localGoVersion with
  | none => rfl
  | some gm =>
    show (match lookupA gm module with
          | none => ""
          | some cachedVersion =>
            if versions.contains cachedVersion then cachedVersion else "") =
      (Option.map (fun cv => if versions.contains cv then cv else "")
        (lookupA gm module)).getD ""
    cases lookupA gm module with
    | none => rfl
    | some cv => rfl

/-! ## Claim theorems about the resolver -/

/-- C2: the selection rule returns the compatible version of greatest
recency rank (everything after it in the ascending-recency listing is
marked incompatible), is invariant under permutations of the probe
results (completion order), and on listing `[A, B, C]` with compatibility
`[true, false, true]` the probe round resolves to `C`. -/
theorem selection_rule :
    (∀ (versions : List String) (results : List VersionResult) v,
       selectLatestCompatible versions results = some v →
         markedCompatible results v = true ∧
         ∃ pre post, versions = pre ++ v :: post ∧
           ∀ w ∈ post, markedCompatible results w = false) ∧
    (∀ (versions : List String) (results results2 : List VersionResult),
       results.Perm results2 →
         selectLatestCompatible versions results =
           selectLatestCompatible versions results2) ∧
    ((probeRound ⟨[], ⟨some emptyCacheDoc, true⟩⟩ "example.com/m"
        ["A", "B", "C"] "go1.21.0"
        (fun v => if v == "B" then Except.ok "go 1.22\n"
                  else Except.ok "go 1.18\n")).2.1 = Except.ok "C") := by
  refine ⟨?_, ?_, ?_⟩
  · intro versions results v hsel
    unfold selectLatestCompatible at hsel
    rw [List.find?_eq_some] at hsel
    obtain ⟨hpv, as, bs, hsplit, hprev⟩ := hsel
    refine ⟨hpv, bs.reverse, as.reverse, ?_, ?_⟩
    · have h2 := congrArg List.reverse hsplit
      simpa using h2
    · intro w hw
      have := hprev w (List.mem_reverse.mp hw)
      simpa using this
  · intro versions results results2 h
    exact find?_congr _ _ _ (fun x _ => markedCompatible_perm h x)
  · rfl

/-- C2 witness: permutation invariance applied to a two-element channel
drain in both completion orders. -/
theorem selection_rule_witness :
    selectLatestCompatible ["A", "B", "C"]
        [⟨"A", "1.18", true⟩, ⟨"B", "1.22", false⟩] =
      selectLatestCompatible ["A", "B", "C"]
        [⟨"B", "1.22", false⟩, ⟨"A", "1.18", true⟩] :=
  selection_rule.2.1 ["A", "B", "C"] _ _ (List.Perm.swap _ _ _)

/-- C6: the cache file changes only when a compatible version was
selected; a probe round in which every fetch fails with a transport error
returns the no-compatible-version error, leaves the cache file unchanged
and (by the final conjunct) changes no `(toolchain, module) ↦ version`
entry of the in-memory mapping. -/
theorem cache_write_only_after_selection :
    (∀ (st : MState) (module : String) (versions : List String)
       (localGoVersion : String) (fetch : String → Except String String)
       (refresh : Bool),
       (resolveVersion st module versions localGoVersion fetch refresh).1.fs ≠ st.fs →
         ∃ v, (resolveVersion st module versions localGoVersion fetch refresh).2.1 =
           Except.ok v) ∧
    (∀ (st : MState) (module : String) (versions : List String)
       (localGoVersion : String) (fetch : String → Except String String),
       (∀ v ∈ versions, ∃ msg, fetch v = Except.error msg) →
         probeRound st module versions localGoVersion fetch =
           (⟨ensureKey st.modMap localGoVersion, st.fs⟩,
            Except.error ResolveError.noCompatibleVersion, versions.reverse)) ∧
    (∀ (m : CacheMap) (g g2 mo : String),
       lookup2 (ensureKey m g) g2 mo = lookup2 m g2 mo) := by
  refine ⟨?_, ?_, lookup2_ensureKey⟩
  · intro st module versions localGoVersion fetch refresh hne
    cases refresh with
    | true => exact probeRound_fs_change hne
    | false =>
      by_cases hc : findCompatibleVersionFromCache st.modMap module versions
          localGoVersion = ""
      · simp only [resolveVersion, Bool.false_eq_true, if_false,
          findCompatibleVersion, hc, ne_eq, not_true_eq_false] at hne ⊢
        exact probeRound_fs_change hne
      · simp [resolveVersion, findCompatibleVersion, hc] at hne
  · intro st module versions localGoVersion fetch hfail
    have hall := @probeResults_all_incompatible versions localGoVersion fetch hfail
    have hsel := @select_none_of_all_incompatible versions
      (probeResults versions localGoVersion fetch) hall
    simp only [probeRound]
    rw [hsel]

/-- C6 witness: a two-candidate probe round whose fetches all fail with a
transport error. -/
theorem cache_write_only_after_selection_witness :
    probeRound ⟨[], ⟨some emptyCacheDoc, true⟩⟩ "example.com/m"
        ["v1.0.0", "v1.1.0"] "go1.21.0"
        (fun _ => Except.error "dial tcp: i/o timeout") =
      (⟨[("go1.21.0", [])], ⟨some emptyCacheDoc, true⟩⟩,
       Except.error ResolveError.noCompatibleVersion, ["v1.1.0", "v1.0.0"]) :=
  cache_write_only_after_selection.2.1 _ _ _ _ _
    (fun _ _ => ⟨"dial tcp: i/o timeout", rfl⟩)

/-- C7: the cached lookup answers only with the stored entry and only when
that entry occurs in the current listing; a stored version missing from
the listing, or a missing entry, is a miss, and a miss makes
`findCompatibleVersion` proceed to the remote probe round. -/
theorem cache_lookup_requires_listing :
    (∀ (mm : CacheMap) (module : String) (versions : List String)
       (localGoVersion : String),
       findCompatibleVersionFromCache mm module versions localGoVersion ≠ "" →
         lookup2 mm localGoVersion module =
           some (findCompatibleVersionFromCache mm module versions localGoVersion) ∧
         findCompatibleVersionFromCache mm module versions localGoVersion ∈ versions) ∧
    (∀ (mm : CacheMap) (module : String) (versions : List String)
       (localGoVersion v : String),
       lookup2 mm localGoVersion module = some v → v ∉ versions →
         findCompatibleVersionFromCache mm module versions localGoVersion = "") ∧
    (∀ (mm : CacheMap) (module : String) (versions : List String)
       (localGoVersion : String),
       lookup2 mm localGoVersion module = none →
         findCompatibleVersionFromCache mm module versions localGoVersion = "") ∧
    (∀ (st : MState) (module : String) (versions : List String)
       (localGoVersion : String) (fetch : String → Except String String),
       findCompatibleVersionFromCache st.modMap module versions localGoVersion = "" →
         findCompatibleVersion st module versions localGoVersion fetch =
           probeRound st module versions localGoVersion fetch) := by
  refine ⟨?_, ?_, ?_, ?_⟩
  · intro mm module versions localGoVersion hne
    rw [findFromCache_eq] at hne ⊢
    cases hl : lookup2 mm localGoVersion module with
    | none =>
      rw [hl] at hne
      exact absurd rfl hne
    | some cv =>
      rw [hl] at hne
      simp only [Option.map_some', Option.getD_some] at hne ⊢
      by_cases h3 : versions.contains cv = true
      · rw [if_pos h3]
        exact ⟨rfl, by simpa [List.contains, List.elem_eq_mem] using h3⟩
      · rw [Bool.not_eq_true] at h3
        rw [if_neg (by rw [h3]; simp)] at hne
        exact absurd rfl hne
  · intro mm module versions localGoVersion v hl hnot
    rw [findFromCache_eq, hl]
    simp only [Option.map_some', Option.getD_some]
    have h3 : versions.contains v = false := by
      simp only [List.contains, List.elem_eq_mem, decide_eq_false_iff_not]
      exact hnot
    rw [if_neg (by rw [h3]; simp)]
  · intro mm module versions localGoVersion hl
    rw [findFromCache_eq, hl]
    rfl
  · intro st module versions localGoVersion fetch hc
    simp [findCompatibleVersion, hc]

/-- C7 witness: a stored version absent from the listing behaves as a
miss. -/
theorem cache_lookup_requires_listing_witness :
    findCompatibleVersionFromCache
        [("go1.21.0", [("example.com/m", "v9.9.9")])]
        "example.com/m" ["v1.0.0", "v1.2.3"] "go1.21.0" = "" :=
  cache_lookup_requires_listing.2.1 _ _ _ _ "v9.9.9" (by decide) (by decide)

/-- C8: with the refresh flag set, resolution runs the remote resolver:
its outcome and its fetch trace do not depend on the cache state (so a
present, otherwise-valid hit is bypassed), and every version of the
current listing is re-probed. -/
theorem forced_refresh_bypasses_cache :
    (∀ (st : MState) (module : String) (versions : List String)
       (localGoVersion : String) (fetch : String → Except String String),
       resolveVersion st module versions localGoVersion fetch true =
         findCompatibleVersionRemote st module versions localGoVersion fetch) ∧
    (∀ (st st2 : MState) (module : String) (versions : List String)
       (localGoVersion : String) (fetch : String → Except String String),
       (resolveVersion st module versions localGoVersion fetch true).2 =
         (resolveVersion st2 module versions localGoVersion fetch true).2) ∧
    (∀ (st : MState) (module : String) (versions : List String)
       (localGoVersion : String) (fetch : String → Except String String),
       (resolveVersion st module versions localGoVersion fetch true).2.2 =
         versions.reverse) := by
  refine ⟨fun _ _ _ _ _ => rfl, ?_, ?_⟩
  · intro st st2 module versions localGoVersion fetch
    show (probeRound st module versions localGoVersion fetch).2 =
      (probeRound st2 module versions localGoVersion fetch).2
    rcases hs : selectLatestCompatible versions
        (probeResults versions localGoVersion fetch) with _ | v <;>
      · simp only [probeRound]
        rw [hs]
  · intro st module versions localGoVersion fetch
    show (probeRound st module versions localGoVersion fetch).2.2 = versions.reverse
    rcases hs : selectLatestCompatible versions
        (probeResults versions localGoVersion fetch) with _ | v <;>
      · simp only [probeRound]
        rw [hs]

/-- C10: with the refresh flag unset, a cache entry for
`(localGoVersion, module)` that occurs in the current listing is returned
as is: no version is fetched (empty trace) and neither the in-memory
mapping nor the cache file changes.  (The empty string is the source's
in-band miss sentinel, not a version tag, hence the last hypothesis.) -/
theorem cache_hit_frame (st : MState) (module : String)
    (versions : List String) (localGoVersion : String)
    (fetch : String → Except String String) (v : String)
    (h1 : lookup2 st.modMap localGoVersion module = some v)
    (h2 : v ∈ versions) (h3 : v ≠ "") :
    resolveVersion st module versions localGoVersion fetch false =
      (st, Except.ok v, ([] : List String)) := by
  have hcv : findCompatibleVersionFromCache st.modMap module versions
      localGoVersion = v := by
    rw [findFromCache_eq, h1]
    simp only [Option.map_some', Option.getD_some]
    rw [if_pos (by simp [List.contains, List.elem_eq_mem, h2])]
  show findCompatibleVersion st module versions localGoVersion fetch =
    (st, Except.ok v, ([] : List String))
  simp [findCompatibleVersion, hcv, h3]

/-- C10 witness: a concrete cache hit with a failing network. -/
theorem cache_hit_frame_witness :
    resolveVersion
        ⟨[("go1.21.0", [("example.com/m", "v1.2.3")])], ⟨some emptyCacheDoc, true⟩⟩
        "example.com/m" ["v1.0.0", "v1.2.3"] "go1.21.0"
        (fun _ => Except.error "network down") false =
      (⟨[("go1.21.0", [("example.com/m", "v1.2.3")])], ⟨some emptyCacheDoc, true⟩⟩,
       Except.ok "v1.2.3", ([] : List String)) :=
  cache_hit_frame _ _ _ _ _ _ (by decide) (by decide) (by decide)

/-! ## ConcurrentProber — bounded concurrency

The probe loops launch one goroutine per candidate version; each goroutine
first sends on the buffered channel `m.sem` (capacity `MaxConcurrent`),
then performs its fetch, and releases the slot on return.  This is the
standard semaphore pattern, embedded as a small-step transition system:
a task is `idle` before acquiring a slot, `fetching` while it holds one,
and `done` after releasing it; an acquisition is only enabled while fewer
than `cap` slots are held. -/

/-- Phase of one probe goroutine with respect to the semaphore. -/
inductive ProbePhase where
  | idle
  | fetching
  | done
deriving DecidableEq

/-- Number of fetches in flight: tasks currently holding a semaphore slot. -/
def inFlight (ts : List ProbePhase) : Nat :=
  ts.count ProbePhase.fetching

/-- One scheduler step: a task acquires a slot (enabled only below the
capacity) or finishes its fetch and releases its slot. -/
inductive SemStep (cap : Nat) : List ProbePhase → List ProbePhase → Prop where
  | acquire (ts : List ProbePhase) (i : Nat)
      (hi : ts[i]? = some ProbePhase.idle) (hc : inFlight ts < cap) :
      SemStep cap ts (ts.set i ProbePhase.fetching)
  | finish (ts : List ProbePhase) (i : Nat)
      (hi : ts[i]? = some ProbePhase.fetching) :
      SemStep cap ts (ts.set i ProbePhase.done)

/-- States reachable by a round probing `n` versions under capacity `cap`,
starting with every task idle. -/
inductive SemReachable (cap n : Nat) : List ProbePhase → Prop where
  | init : SemReachable cap n (List.replicate n ProbePhase.idle)
  | step {ts ts2 : List ProbePhase} : SemReachable cap n ts →
      SemStep cap ts ts2 → SemReachable cap n ts2

/-- Acquiring a slot increases the in-flight count by one. -/
theorem inFlight_set_fetching (ts : List ProbePhase) (i : Nat)
    (h : ts[i]? = some ProbePhase.idle) :
    inFlight (ts.set i ProbePhase.fetching) = inFlight ts + 1 := by
  induction ts generalizing i with
  | nil => simp at h
  | cons t rest ih =>
    cases i with
    | zero =>
      simp only [List.getElem?_cons_zero, Option.some.injEq] at h
      subst h
      simp [inFlight, List.set, List.count_cons]
    | succ i =>
      simp only [List.getElem?_cons_succ] at h
      simp only [inFlight, List.set, List.count_cons] at ih ⊢
      rw [ih i h]
      omega

/-- Releasing a slot decreases the in-flight count by one. -/
theorem inFlight_set_done (ts : List ProbePhase) (i : Nat)
    (h : ts[i]? = some ProbePhase.fetching) :
    inFlight (ts.set i ProbePhase.done) + 1 = inFlight ts := by
  induction ts generalizing i with
  | nil => simp at h
  | cons t rest ih =>
    cases i with
    | zero =>
      simp only [List.getElem?_cons_zero, Option.some.injEq] at h
      subst h
      simp [inFlight, List.set, List.count_cons]
    | succ i =>
      simp only [List.getElem?_cons_succ] at h
      simp only [inFlight, List.set, List.count_cons] at ih ⊢
      rw [← ih i h]
      omega

/-- Initially nothing is in flight. -/
theorem inFlight_replicate_idle (n : Nat) :
    inFlight (List.replicate n ProbePhase.idle) = 0 := by
  induction n with
  | zero => rfl
  | succ n ih => simp [List.replicate, inFlight, List.count_cons] at ih ⊢; omega

/-- C9: in every reachable state of a probe round the number of
simultaneously in-flight fetches is bounded by the semaphore capacity
(in particular by the source's `MaxConcurrent`), and probing 50 versions
with a cap of 10 never has more than 10 fetches outstanding. -/
theorem bounded_concurrency :
    (∀ (cap n : Nat) (ts : List ProbePhase),
       SemReachable cap n ts → inFlight ts ≤ cap) ∧
    (∀ (n : Nat) (ts : List ProbePhase),
       SemReachable MaxConcurrent n ts → inFlight ts ≤ MaxConcurrent) ∧
    (∀ ts : List ProbePhase, SemReachable 10 50 ts → inFlight ts ≤ 10) := by
  have main : ∀ (cap n : Nat) (ts : List ProbePhase),
      SemReachable cap n ts → inFlight ts ≤ cap := by
    intro cap n ts h
    induction h with
    | init => simp [inFlight_replicate_idle]
    | step _ hs ih =>
      cases hs with
      | acquire i hi hc =>
        rw [inFlight_set_fetching _ i hi]
        omega
      | finish i hi =>
        have h2 := inFlight_set_done _ i hi
        omega
  exact ⟨main, fun n ts h => main _ n ts h, fun ts h => main 10 50 ts h⟩

/-- C9 witness: the bound applied to a concrete reachable state of a
50-version round under capacity 10, after one acquisition step. -/
theorem bounded_concurrency_witness :
    inFlight ((List.replicate 50 ProbePhase.idle).set 0 ProbePhase.fetching) ≤ 10 :=
  bounded_concurrency.2.2 _
    (SemReachable.step SemReachable.init
      (SemStep.acquire _ 0 (by decide) (by decide)))

end GoGet
